import Mathlib

/-!
Verification of the campus-paths graph/shortest-path engine.

The development embeds the core components of the repository:
`LabeledEdge`, `LabeledGraph` (pathfinder/datastructures/LabeledGraph.java),
the Dijkstra solver `shortestPathSolver` (pathfinder/ShortestPathFinder.java),
and `CampusMap` (pathfinder/CampusMap.java).  The weighted-path value type
`Path<Node>` and the `Point` coordinate type are declared by the repository
but their sources are not included; they are modelled from the specification.

Java `HashSet`s are modelled as duplicate-free lists, Java `HashMap`s as
association lists with duplicate-free key lists.  The graph is generic in the
node type `α` and in the edge-label type `τ` (`T extends Comparable<T>` in
the Java source); the solver and the path type require `τ` to be a linearly
ordered additive commutative monoid, which covers the repository's
instantiation at `Double` distances (modelled as `ℚ` in `CampusMap`).
Failures (`IllegalArgumentException`, `AssertionError`, null dereference)
are modelled by an explicit error type.
-/

namespace CampusPaths

/-- Failure modes of the embedded operations: `invalidArgument` models
`IllegalArgumentException`, `notFound` models a hypothetical distinct
not-found failure, `assertionError` models a failed Java `assert`,
`internal` models a null-pointer dereference. -/
inductive Err : Type where
  | invalidArgument : Err
  | notFound : Err
  | assertionError : Err
  | internal : Err
deriving DecidableEq

instance {ε σ : Type} [DecidableEq ε] [DecidableEq σ] : DecidableEq (Except ε σ)
  | .error a, .error b =>
    if h : a = b then .isTrue (by rw [h])
    else .isFalse (fun he => h (by injection he))
  | .error _, .ok _ => .isFalse (fun he => Except.noConfusion he)
  | .ok _, .error _ => .isFalse (fun he => Except.noConfusion he)
  | .ok a, .ok b =>
    if h : a = b then .isTrue (by rw [h])
    else .isFalse (fun he => h (by injection he))

/-- An immutable directed labeled edge (LabeledEdge.java): origin, destination
and a weight label. -/
structure LabeledEdge (α τ : Type) : Type where
  nodeFrom : α
  nodeTo : α
  label : τ
deriving DecidableEq

/-- The mutable directed graph (LabeledGraph.java): the node set `nodes`
(a `HashSet<E>`) and the adjacency map `neighbors`
(a `HashMap<E, Set<LabeledEdge>>`). -/
structure LabeledGraph (α τ : Type) : Type where
  nodes : List α
  neighbors : List (α × List (LabeledEdge α τ))
deriving DecidableEq

variable {α : Type} [DecidableEq α] {β : Type} {τ : Type}

/-- Association-list lookup, modelling `HashMap.get` / `containsKey`. -/
def lookupList : List (α × β) → α → Option β
  | [], _ => none
  | (k, v) :: rest, a => if k = a then some v else lookupList rest a

/-- Replace the value stored under key `a`, modelling mutation of the value
object reached through `HashMap.get`. -/
def updateList : List (α × β) → α → β → List (α × β)
  | [], _, _ => []
  | (k, v) :: rest, a, b => if k = a then (a, b) :: rest else (k, v) :: updateList rest a b

namespace LabeledGraph

variable [DecidableEq τ]

/-- The key set of the adjacency map. -/
def keys (g : LabeledGraph α τ) : List α := g.neighbors.map Prod.fst

/-- Embeds `HashMap.containsKey` on the adjacency map; this is what
`LabeledGraph.contains` consults. -/
def containsKey (g : LabeledGraph α τ) (n : α) : Bool :=
  (lookupList g.neighbors n).isSome

/-- Embeds `addNode` (LabeledGraph.java:74-85): insert the node and an empty
adjacency entry when absent; the `Bool` reports whether it was inserted. -/
def addNode (g : LabeledGraph α τ) (a : α) : Bool × LabeledGraph α τ :=
  if a ∈ g.nodes then (false, g)
  else (true, ⟨a :: g.nodes, (a, []) :: g.neighbors⟩)

/-- Embeds `addEdge` (LabeledGraph.java:100-115): throw `IllegalArgumentException`
when either endpoint is missing from the adjacency map; otherwise insert the
edge into the origin's edge set when it is not already present, reporting
whether it was inserted.  The graph component is the post-state (unchanged
on failure, as the exception is thrown before any mutation). -/
def addEdge (g : LabeledGraph α τ) (f t : α) (w : τ) :
    Except Err Bool × LabeledGraph α τ :=
  match lookupList g.neighbors f, lookupList g.neighbors t with
  | some es, some _ =>
      if (⟨f, t, w⟩ : LabeledEdge α τ) ∈ es then (.ok false, g)
      else (.ok true, ⟨g.nodes, updateList g.neighbors f (⟨f, t, w⟩ :: es)⟩)
  | _, _ => (.error .invalidArgument, g)

/-- Embeds `removeEdge` (LabeledGraph.java:131-145): throw `IllegalArgumentException`
when either endpoint is missing; otherwise remove the equal edge when present,
returning the removed edge, or return `none` when no such edge exists. -/
def removeEdge (g : LabeledGraph α τ) (f t : α) (w : τ) :
    Except Err (Option (LabeledEdge α τ)) × LabeledGraph α τ :=
  match lookupList g.neighbors f, lookupList g.neighbors t with
  | some es, some _ =>
      if (⟨f, t, w⟩ : LabeledEdge α τ) ∈ es then
        (.ok (some ⟨f, t, w⟩), ⟨g.nodes, updateList g.neighbors f (es.erase ⟨f, t, w⟩)⟩)
      else (.ok none, g)
  | _, _ => (.error .invalidArgument, g)

/-- Embeds `listEdgesOut` (LabeledGraph.java:185-192): `none` models the
`IllegalArgumentException` thrown when the node is absent. -/
def listEdgesOut (g : LabeledGraph α τ) (n : α) : Option (List (LabeledEdge α τ)) :=
  lookupList g.neighbors n

/-- Embeds `numEdges` (LabeledGraph.java:225-238): membership of both nodes is
checked only by Java `assert` statements, so an absent node fails with
`AssertionError` (when assertions are enabled), not
`IllegalArgumentException`; with both present it counts the stored edges out
of `n1` whose destination is `n2`. -/
def numEdges (g : LabeledGraph α τ) (n1 n2 : α) : Except Err ℕ :=
  match lookupList g.neighbors n1, lookupList g.neighbors n2 with
  | some es, some _ => .ok (es.countP (fun e => decide (e.nodeTo = n2)))
  | _, _ => .error .assertionError

/-- Stable insertion into a hash-sorted list: the new node goes after all
nodes of equal hash, matching the stability of `List.sort`. -/
def insertHash (hash : α → ℤ) (a : α) : List α → List α
  | [] => [a]
  | b :: l => if hash a < hash b then a :: b :: l else b :: insertHash hash a l

/-- Stable sort by hash value (insertion sort; any stable sort by a total
preorder produces this same list). -/
def sortByHash (hash : α → ℤ) : List α → List α
  | [] => []
  | a :: l => insertHash hash a (sortByHash hash l)

/-- Embeds `listNodes` (LabeledGraph.java:152-157): copy the node set into a list
and sort it with `Comparator.comparingInt(Object::hashCode)`.  The Java hash
function is modelled as an explicit parameter `hash`. -/
def listNodes (hash : α → ℤ) (g : LabeledGraph α τ) : List α :=
  sortByHash hash g.nodes

/-- The representation invariant of LabeledGraph.java (`checkRep`): the node
set and the adjacency key set coincide, both are duplicate-free (they model
Java sets), each edge set is duplicate-free, and every stored edge's
endpoints are nodes of the graph. -/
def WF (g : LabeledGraph α τ) : Prop :=
  g.nodes.Nodup ∧
  g.keys.Nodup ∧
  (∀ a ∈ g.nodes, a ∈ g.keys) ∧
  (∀ a ∈ g.keys, a ∈ g.nodes) ∧
  (∀ kv ∈ g.neighbors, (kv.2 : List (LabeledEdge α τ)).Nodup) ∧
  (∀ kv ∈ g.neighbors, ∀ e ∈ kv.2, e.nodeTo ∈ g.nodes ∧ e.nodeFrom ∈ g.nodes)

instance (g : LabeledGraph α τ) : Decidable (WF g) := by
  unfold WF; infer_instance

end LabeledGraph

/-- All stored edge weights are non-negative. -/
def NonNeg [LE τ] [Zero τ] (g : LabeledGraph α τ) : Prop :=
  ∀ kv ∈ g.neighbors, ∀ e ∈ kv.2, 0 ≤ e.label

instance [LE τ] [Zero τ] [DecidableRel (fun a b : τ => a ≤ b)]
    (g : LabeledGraph α τ) : Decidable (NonNeg g) := by
  unfold NonNeg; infer_instance

/-- Modelled from the spec: one step of a `Path<Node>` (the Path class source
is not included in the repository snapshot).  Each Segment is
`(start Node, end Node, cost)`. -/
structure Segment (α τ : Type) : Type where
  segStart : α
  segEnd : α
  segCost : τ
deriving DecidableEq

/-- Modelled from the spec: the immutable weighted path value `Path<Node>`
(source not included): a start node, an ordered segment list, and the
cumulative cost. -/
structure PathW (α τ : Type) : Type where
  pstart : α
  segments : List (Segment α τ)
  cost : τ
deriving DecidableEq

/-- The end of a segment list starting at `a`: the last segment's end node,
or `a` itself when the list is empty. -/
def segsEnd (a : α) (l : List (Segment α τ)) : α :=
  match l.getLast? with
  | some s => s.segEnd
  | none => a

namespace PathW

/-- Modelled from the spec: `new Path(start)` — zero segments and cost 0. -/
def single [Zero τ] (a : α) : PathW α τ := ⟨a, [], 0⟩

/-- Modelled from the spec: `Path.getEnd()` — the last segment's end node,
or the sole start node when there are no segments. -/
def getEnd (p : PathW α τ) : α := segsEnd p.pstart p.segments

/-- Modelled from the spec: `Path.extend(nextNode, cost)` — a new Path with
one more segment (current end to `n`, cost `w`) and cost increased by `w`;
the original path value is unchanged. -/
def extend [Add τ] (p : PathW α τ) (n : α) (w : τ) : PathW α τ :=
  ⟨p.pstart, p.segments ++ [⟨p.getEnd, n, w⟩], p.cost + w⟩

end PathW

/-- The edge relation of a graph: some stored edge out of `a` goes to `b`
with weight `w`. -/
def EdgeMem [DecidableEq τ] (g : LabeledGraph α τ) (a b : α) (w : τ) : Prop :=
  ∃ e ∈ (lookupList g.neighbors a).getD [], e.nodeTo = b ∧ e.label = w

instance [DecidableEq τ] (g : LabeledGraph α τ) (a b : α) (w : τ) :
    Decidable (EdgeMem g a b w) :=
  List.decidableBEx _ _

/-- The relation `CostPath g a b c` holds when the graph contains a path from `a` to `b`
of total weight `c` (the specification's notion of a path as a chained
sequence of edges). -/
inductive CostPath [DecidableEq τ] [Add τ] [Zero τ] (g : LabeledGraph α τ) :
    α → α → τ → Prop where
  | refl (a : α) : CostPath g a a 0
  | step {a b c : α} {w k : τ} :
      CostPath g a b k → EdgeMem g b c w → CostPath g a c (k + w)

/-- Segment lists that trace actual graph edges, chained from a given start
node. -/
def SegsValid [DecidableEq τ] (g : LabeledGraph α τ) : α → List (Segment α τ) → Prop
  | _, [] => True
  | a, s :: rest =>
      s.segStart = a ∧ EdgeMem g s.segStart s.segEnd s.segCost ∧ SegsValid g s.segEnd rest

/-- A path value is valid for a graph when its segments chain along stored
edges and its stored cost is the sum of its segment costs. -/
def PathW.Valid [DecidableEq τ] [AddCommMonoid τ] (g : LabeledGraph α τ)
    (p : PathW α τ) : Prop :=
  SegsValid g p.pstart p.segments ∧ p.cost = (p.segments.map Segment.segCost).sum

section Solver

variable [LinearOrderedAddCommMonoid τ]

/-- Insertion into the priority queue, modelled as insertion into a
cost-sorted list (`Comparator.comparingDouble(Path::getCost)`). -/
def push (p : PathW α τ) : List (PathW α τ) → List (PathW α τ)
  | [] => [p]
  | q :: l => if p.cost ≤ q.cost then p :: q :: l else q :: push p l

/-- The main loop of `shortestPathSolver` (ShortestPathFinder.java:140-157).
The fringe is the cost-sorted queue, `fin` the `finished` set.  The `fuel`
argument bounds the iteration count (the Java loop runs until return; a
sufficient bound is proved below, so the `none` fuel-exhaustion result is
unreachable).  Results: `none` models an uncaught exception or exhaustion,
`some none` models `return null` (queue emptied), `some (some p)` models
returning path `p`. -/
def dijkstraLoop (g : LabeledGraph α τ) (endN : α) :
    ℕ → List (PathW α τ) → List α → Option (Option (PathW α τ))
  | 0, _, _ => none
  | _ + 1, [], _ => some none
  | fuel + 1, p :: rest, fin =>
    if p.getEnd = endN then some (some p)
    else if p.getEnd ∈ fin then dijkstraLoop g endN fuel rest fin
    else
      match lookupList g.neighbors p.getEnd with
      | none => none
      | some es =>
        dijkstraLoop g endN fuel
          ((es.filter (fun e => decide (e.nodeTo ∉ fin))).foldl
            (fun fr e => push (p.extend e.nodeTo e.label) fr) rest)
          (p.getEnd :: fin)

/-- Total number of stored edges, used to bound the loop iteration count. -/
def totalDeg (g : LabeledGraph α τ) : ℕ :=
  (g.neighbors.map (fun kv => kv.2.length)).sum

/-- Embeds `ShortestPathFinder.shortestPathSolver` (ShortestPathFinder.java:127-159):
seed the fringe with the trivial path at `s` and run Dijkstra's loop. -/
def shortestPathSolver (g : LabeledGraph α τ) (s e : α) :
    Option (Option (PathW α τ)) :=
  dijkstraLoop g e (totalDeg g + 2) [PathW.single s] []

end Solver

/-! ### Association-list lemmas -/

theorem lookup_mem {l : List (α × β)} {a : α} {b : β}
    (h : lookupList l a = some b) : (a, b) ∈ l := by
  induction l with
  | nil => simp [lookupList] at h
  | cons kv rest ih =>
    obtain ⟨k, v⟩ := kv
    by_cases hk : k = a
    · subst hk
      simp [lookupList] at h
      subst h
      exact List.mem_cons_self _ _
    · simp [lookupList, hk] at h
      exact List.mem_cons_of_mem _ (ih h)

theorem lookup_isSome_iff {l : List (α × β)} {a : α} :
    (lookupList l a).isSome = true ↔ a ∈ l.map Prod.fst := by
  induction l with
  | nil => simp [lookupList]
  | cons kv rest ih =>
    obtain ⟨k, v⟩ := kv
    by_cases hk : k = a
    · subst hk
      simp [lookupList]
    · simp [lookupList, hk, ih, Ne.symm hk]

theorem lookup_eq_none_iff {l : List (α × β)} {a : α} :
    lookupList l a = none ↔ a ∉ l.map Prod.fst := by
  rw [← lookup_isSome_iff, ← Option.not_isSome_iff_eq_none]

theorem lookup_of_keys_nodup {l : List (α × β)} (hnd : (l.map Prod.fst).Nodup)
    {a : α} {b : β} (h : (a, b) ∈ l) : lookupList l a = some b := by
  induction l with
  | nil => simp at h
  | cons kv rest ih =>
    obtain ⟨k, v⟩ := kv
    simp only [List.map_cons, List.nodup_cons] at hnd
    rcases List.mem_cons.mp h with heq | hmem
    · cases heq
      simp [lookupList]
    · have hk : k ≠ a := by
        intro he
        refine hnd.1 ?_
        rw [he]
        exact List.mem_map.mpr ⟨(a, b), hmem, rfl⟩
      simp [lookupList, hk]
      exact ih hnd.2 hmem

theorem keys_updateList (l : List (α × β)) (a : α) (b : β) :
    (updateList l a b).map Prod.fst = l.map Prod.fst := by
  induction l with
  | nil => simp [updateList]
  | cons kv rest ih =>
    obtain ⟨k, v⟩ := kv
    by_cases hk : k = a
    · subst hk
      simp [updateList]
    · simp [updateList, hk, ih]

theorem mem_updateList {l : List (α × β)} {a : α} {b : β} {kv : α × β}
    (h : kv ∈ updateList l a b) : kv ∈ l ∨ kv = (a, b) := by
  induction l with
  | nil => simp [updateList] at h
  | cons kv' rest ih =>
    obtain ⟨k, v⟩ := kv'
    by_cases hk : k = a
    · subst hk
      simp [updateList] at h
      rcases h with h | h
      · exact Or.inr h
      · exact Or.inl (List.mem_cons_of_mem _ h)
    · simp [updateList, hk] at h
      rcases h with h | h
      · exact Or.inl (by simp [h])
      · rcases ih h with h' | h'
        · exact Or.inl (List.mem_cons_of_mem _ h')
        · exact Or.inr h'

theorem lookup_updateList_self {l : List (α × β)} {a : α} {es : β}
    (h : lookupList l a = some es) (b : β) :
    lookupList (updateList l a b) a = some b := by
  induction l with
  | nil => simp [lookupList] at h
  | cons kv rest ih =>
    obtain ⟨k, v⟩ := kv
    by_cases hk : k = a
    · subst hk
      simp [updateList, lookupList]
    · simp [lookupList, hk] at h
      simp [updateList, lookupList, hk]
      exact ih h

theorem lookup_updateList_ne {l : List (α × β)} {a n : α} (b : β) (h : n ≠ a) :
    lookupList (updateList l a b) n = lookupList l n := by
  induction l with
  | nil => simp [updateList]
  | cons kv rest ih =>
    obtain ⟨k, v⟩ := kv
    by_cases hk : k = a
    · subst hk
      simp [updateList, lookupList, Ne.symm h]
    · simp only [updateList, hk, if_false]
      by_cases hn : k = n
      · subst hn
        simp [lookupList]
      · simp [lookupList, hn, ih]

/-! ### Priority-queue (sorted fringe) lemmas -/

section Fringe

variable [LinearOrderedAddCommMonoid τ]

/-- The fringe ordering invariant: non-decreasing path costs. -/
def SortedQ (l : List (PathW α τ)) : Prop :=
  l.Pairwise (fun p q => p.cost ≤ q.cost)

theorem mem_push {p x : PathW α τ} {l : List (PathW α τ)} :
    x ∈ push p l ↔ x = p ∨ x ∈ l := by
  induction l with
  | nil => simp [push]
  | cons q rest ih =>
    by_cases h : p.cost ≤ q.cost
    · simp [push, h]
    · simp [push, h, ih]
      tauto

theorem length_push (p : PathW α τ) (l : List (PathW α τ)) :
    (push p l).length = l.length + 1 := by
  induction l with
  | nil => simp [push]
  | cons q rest ih =>
    by_cases h : p.cost ≤ q.cost
    · simp [push, h]
    · simp [push, h, ih]

theorem sortedQ_push {p : PathW α τ} {l : List (PathW α τ)} (h : SortedQ l) :
    SortedQ (push p l) := by
  induction l with
  | nil => simp [push, SortedQ]
  | cons q rest ih =>
    rw [SortedQ, List.pairwise_cons] at h
    by_cases hle : p.cost ≤ q.cost
    · rw [SortedQ, push, if_pos hle, List.pairwise_cons]
      refine ⟨?_, List.pairwise_cons.mpr h⟩
      intro x hx
      rcases List.mem_cons.mp hx with rfl | hx'
      · exact hle
      · exact le_trans hle (h.1 x hx')
    · rw [SortedQ, push, if_neg hle, List.pairwise_cons]
      constructor
      · intro x hx
        rcases mem_push.mp hx with rfl | hx'
        · exact le_of_not_le hle
        · exact h.1 x hx'
      · exact ih h.2

theorem head_min {p : PathW α τ} {rest : List (PathW α τ)}
    (h : SortedQ (p :: rest)) {q : PathW α τ} (hq : q ∈ p :: rest) :
    p.cost ≤ q.cost := by
  rcases List.mem_cons.mp hq with rfl | hq'
  · exact le_refl _
  · exact (List.pairwise_cons.mp h).1 q hq'

variable {γ : Type}

theorem mem_foldl_push_base {f : γ → PathW α τ} {fr : List (PathW α τ)}
    {l : List γ} {x : PathW α τ} (hx : x ∈ fr) :
    x ∈ l.foldl (fun fr e => push (f e) fr) fr := by
  induction l generalizing fr with
  | nil => exact hx
  | cons e rest ih =>
    exact ih (mem_push.mpr (Or.inr hx))

theorem mem_foldl_push_elem {f : γ → PathW α τ} {fr : List (PathW α τ)}
    {l : List γ} {e : γ} (he : e ∈ l) :
    f e ∈ l.foldl (fun fr e => push (f e) fr) fr := by
  induction l generalizing fr with
  | nil => simp at he
  | cons e' rest ih =>
    rcases List.mem_cons.mp he with rfl | he'
    · show f e ∈ rest.foldl (fun fr e => push (f e) fr) (push (f e) fr)
      exact mem_foldl_push_base (mem_push.mpr (Or.inl rfl))
    · exact ih he'

theorem mem_foldl_push_cases {f : γ → PathW α τ} {fr : List (PathW α τ)}
    {l : List γ} {x : PathW α τ}
    (hx : x ∈ l.foldl (fun fr e => push (f e) fr) fr) :
    x ∈ fr ∨ ∃ e ∈ l, x = f e := by
  induction l generalizing fr with
  | nil => exact Or.inl hx
  | cons e rest ih =>
    rcases ih hx with h | ⟨e', he', rfl⟩
    · rcases mem_push.mp h with rfl | h'
      · exact Or.inr ⟨e, List.mem_cons_self _ _, rfl⟩
      · exact Or.inl h'
    · exact Or.inr ⟨e', List.mem_cons_of_mem _ he', rfl⟩

theorem length_foldl_push (f : γ → PathW α τ) (fr : List (PathW α τ))
    (l : List γ) :
    (l.foldl (fun fr e => push (f e) fr) fr).length = fr.length + l.length := by
  induction l generalizing fr with
  | nil => simp
  | cons e rest ih =>
    simp only [List.foldl_cons, ih, length_push, List.length_cons]
    omega

theorem sortedQ_foldl_push {f : γ → PathW α τ} {fr : List (PathW α τ)}
    {l : List γ} (h : SortedQ fr) :
    SortedQ (l.foldl (fun fr e => push (f e) fr) fr) := by
  induction l generalizing fr with
  | nil => exact h
  | cons e rest ih => exact ih (sortedQ_push h)

end Fringe

/-! ### Path validity and graph-path lemmas -/

section PathLemmas

variable [DecidableEq τ]

theorem segsEnd_nil (a : α) : segsEnd a ([] : List (Segment α τ)) = a := rfl

theorem segsEnd_cons (a : α) (s : Segment α τ) (l : List (Segment α τ)) :
    segsEnd a (s :: l) = segsEnd s.segEnd l := by
  cases l with
  | nil => rfl
  | cons s' l' => rfl

theorem segsEnd_concat (a : α) (l : List (Segment α τ)) (s : Segment α τ) :
    segsEnd a (l ++ [s]) = s.segEnd := by
  simp [segsEnd]

theorem segsValid_concat {g : LabeledGraph α τ} {a : α} {l : List (Segment α τ)}
    (hv : SegsValid g a l) {b : α} {w : τ}
    (he : EdgeMem g (segsEnd a l) b w) :
    SegsValid g a (l ++ [⟨segsEnd a l, b, w⟩]) := by
  induction l generalizing a with
  | nil => exact ⟨rfl, he, trivial⟩
  | cons s rest ih =>
    obtain ⟨h1, h2, h3⟩ := hv
    rw [segsEnd_cons] at he
    exact ⟨h1, h2, by simpa [segsEnd_cons] using ih h3 he⟩

variable [AddCommMonoid τ]

theorem single_valid (g : LabeledGraph α τ) (a : α) :
    (PathW.single a : PathW α τ).Valid g := by
  constructor
  · trivial
  · simp [PathW.single]

theorem single_getEnd (a : α) : (PathW.single a : PathW α τ).getEnd = a := rfl

theorem single_cost (a : α) : (PathW.single a : PathW α τ).cost = 0 := rfl

theorem extend_pstart (p : PathW α τ) (n : α) (w : τ) :
    (p.extend n w).pstart = p.pstart := rfl

theorem extend_cost (p : PathW α τ) (n : α) (w : τ) :
    (p.extend n w).cost = p.cost + w := rfl

theorem extend_getEnd (p : PathW α τ) (n : α) (w : τ) :
    (p.extend n w).getEnd = n := by
  show segsEnd _ (p.segments ++ [⟨p.getEnd, n, w⟩]) = n
  rw [segsEnd_concat]

theorem extend_valid {g : LabeledGraph α τ} {p : PathW α τ} (hv : p.Valid g)
    {n : α} {w : τ} (he : EdgeMem g p.getEnd n w) :
    (p.extend n w).Valid g := by
  obtain ⟨h1, h2⟩ := hv
  constructor
  · exact segsValid_concat h1 he
  · show p.cost + w =
      ((p.segments ++
        [({ segStart := p.getEnd, segEnd := n, segCost := w } : Segment α τ)]).map
          Segment.segCost).sum
    simp [h2]

end PathLemmas

section CostPathLemmas

variable [DecidableEq τ] [LinearOrderedAddCommMonoid τ]

theorem edgeMem_nonneg {g : LabeledGraph α τ} (hNN : NonNeg g) {a b : α} {w : τ}
    (he : EdgeMem g a b w) : 0 ≤ w := by
  obtain ⟨e, hmem, _, hl⟩ := he
  cases hlk : lookupList g.neighbors a with
  | none => rw [hlk] at hmem; simp at hmem
  | some es =>
    rw [hlk] at hmem
    simp only [Option.getD_some] at hmem
    exact hl ▸ hNN _ (lookup_mem hlk) e hmem

theorem edgeMem_to_mem {g : LabeledGraph α τ} (hWF : g.WF) {a b : α} {w : τ}
    (he : EdgeMem g a b w) : b ∈ g.nodes := by
  obtain ⟨e, hmem, ht, _⟩ := he
  cases hlk : lookupList g.neighbors a with
  | none => rw [hlk] at hmem; simp at hmem
  | some es =>
    rw [hlk] at hmem
    simp only [Option.getD_some] at hmem
    exact ht ▸ (hWF.2.2.2.2.2 _ (lookup_mem hlk) e hmem).1

theorem costPath_nonneg {g : LabeledGraph α τ} (hNN : NonNeg g) {a b : α} {c : τ}
    (h : CostPath g a b c) : 0 ≤ c := by
  induction h with
  | refl => exact le_refl 0
  | step _ he ih => exact add_nonneg ih (edgeMem_nonneg hNN he)

theorem costPath_end_mem {g : LabeledGraph α τ} (hWF : g.WF) {a b : α} {c : τ}
    (ha : a ∈ g.nodes) (h : CostPath g a b c) : b ∈ g.nodes := by
  induction h with
  | refl => exact ha
  | step _ he _ => exact edgeMem_to_mem hWF he

theorem costPath_cast {g : LabeledGraph α τ} {a b : α} {c c' : τ}
    (h : CostPath g a b c) (he : c = c') : CostPath g a b c' := he ▸ h

theorem costPath_prepend {g : LabeledGraph α τ} {a b d : α} {w k : τ}
    (he : EdgeMem g a b w) (h : CostPath g b d k) : CostPath g a d (w + k) := by
  induction h with
  | refl =>
    exact costPath_cast (CostPath.step (CostPath.refl a) he) (by simp [add_comm])
  | step hp he' ih =>
    exact costPath_cast (CostPath.step ih he') (by rw [add_assoc])

theorem segsValid_costPath {g : LabeledGraph α τ} {l : List (Segment α τ)} :
    ∀ {a : α}, SegsValid g a l →
      CostPath g a (segsEnd a l) ((l.map Segment.segCost).sum) := by
  induction l with
  | nil => intro a _; exact CostPath.refl a
  | cons s rest ih =>
    intro a hv
    obtain ⟨h1, h2, h3⟩ := hv
    rw [segsEnd_cons, List.map_cons, List.sum_cons]
    exact costPath_prepend (h1 ▸ h2) (ih h3)

theorem valid_costPath {g : LabeledGraph α τ} {p : PathW α τ} (hv : p.Valid g) :
    CostPath g p.pstart p.getEnd p.cost := by
  obtain ⟨h1, h2⟩ := hv
  exact costPath_cast (segsValid_costPath h1) h2.symm

theorem valid_end_mem {g : LabeledGraph α τ} (hWF : g.WF) {p : PathW α τ}
    (hv : p.Valid g) (hs : p.pstart ∈ g.nodes) : p.getEnd ∈ g.nodes :=
  costPath_end_mem hWF hs (valid_costPath hv)

end CostPathLemmas

/-! ### Termination measure for the Dijkstra loop -/

section Measure

/-- The out-degree of a node: size of its stored edge set. -/
def degOf (g : LabeledGraph α τ) (a : α) : ℕ :=
  ((lookupList g.neighbors a).getD []).length

/-- Total out-degree of the nodes not yet finished. -/
def unfinishedDeg (g : LabeledGraph α τ) (fin : List α) : ℕ :=
  ((g.nodes.filter (fun a => decide (a ∉ fin))).map (degOf g)).sum

/-- The loop measure: fringe size plus unfinished out-degree.  Every loop
iteration strictly decreases it. -/
def measureD (g : LabeledGraph α τ) (fringe : List (PathW α τ)) (fin : List α) : ℕ :=
  fringe.length + unfinishedDeg g fin

theorem filter_sum_split {l : List α} (f : α → ℕ) (hnd : l.Nodup) {d : α}
    (hdl : d ∈ l) {fin : List α} (hfin : d ∉ fin) :
    ((l.filter (fun a => decide (a ∉ fin))).map f).sum =
      f d + ((l.filter (fun a => decide (a ∉ d :: fin))).map f).sum := by
  induction l with
  | nil => simp at hdl
  | cons x rest ih =>
    rw [List.nodup_cons] at hnd
    rcases List.mem_cons.mp hdl with rfl | hdr
    · have hrest : rest.filter (fun a => decide (a ∉ fin)) =
          rest.filter (fun a => decide (a ∉ d :: fin)) := by
        apply List.filter_congr
        intro a ha
        have hax : a ≠ d := fun h => hnd.1 (h ▸ ha)
        apply decide_eq_decide.mpr
        simp [List.mem_cons, hax]
      rw [List.filter_cons, List.filter_cons]
      have h1 : decide (d ∉ fin) = true := by simpa using hfin
      have h2 : decide (d ∉ d :: fin) = false := by simp
      rw [h1, h2, if_pos rfl, if_neg (by simp), List.map_cons, List.sum_cons, hrest]
    · have hxd : x ≠ d := fun h => hnd.1 (h ▸ hdr)
      have hsub := ih hnd.2 hdr
      rw [List.filter_cons, List.filter_cons]
      by_cases hx : x ∈ fin
      · have h1 : decide (x ∉ fin) = false := by simpa using hx
        have h2 : decide (x ∉ d :: fin) = false := by
          simp [List.mem_cons, hx]
        rw [h1, h2]
        simpa using hsub
      · have h1 : decide (x ∉ fin) = true := by simpa using hx
        have h2 : decide (x ∉ d :: fin) = true := by
          simp [List.mem_cons, hxd, hx]
        rw [h1, h2]
        simp only [if_pos, List.map_cons, List.sum_cons]
        omega

theorem unfinishedDeg_split {g : LabeledGraph α τ} (hnd : g.nodes.Nodup) {d : α}
    (hd : d ∈ g.nodes) {fin : List α} (hfin : d ∉ fin) :
    unfinishedDeg g fin = degOf g d + unfinishedDeg g (d :: fin) :=
  filter_sum_split (degOf g) hnd hd hfin

theorem unfinishedDeg_nil [DecidableEq τ] {g : LabeledGraph α τ} (hWF : g.WF) :
    unfinishedDeg g [] = totalDeg g := by
  unfold unfinishedDeg totalDeg
  have hfilter : g.nodes.filter (fun a => decide (a ∉ ([] : List α))) = g.nodes :=
    List.filter_eq_self.mpr (fun a _ => by simp)
  rw [hfilter]
  have hperm : g.nodes.Perm g.keys :=
    (List.perm_ext_iff_of_nodup hWF.1 hWF.2.1).mpr
      (fun a => ⟨hWF.2.2.1 a, hWF.2.2.2.1 a⟩)
  rw [(hperm.map (degOf g)).sum_eq]
  unfold LabeledGraph.keys
  rw [List.map_map]
  apply congrArg List.sum
  apply List.map_congr_left
  intro kv hkv
  show degOf g kv.1 = kv.2.length
  unfold degOf
  rw [lookup_of_keys_nodup hWF.2.1 (by simpa using hkv)]
  rfl

end Measure

/-! ### The Dijkstra loop invariant -/

section DijkstraProof

variable [DecidableEq τ] [LinearOrderedAddCommMonoid τ]

/-- The loop invariant of `dijkstraLoop`, for solver run from `s` towards
`e`: the fringe is cost-sorted and holds valid paths out of `s`; the
finished set is a duplicate-free set of graph nodes not containing `e`;
and the fringe covers the frontier: a minimal entry ending at `s` while `s`
is unfinished, and, for every edge out of a finished node to an unfinished
node, an entry at most as expensive as any path through that edge. -/
structure DInv (g : LabeledGraph α τ) (s e : α) (fringe : List (PathW α τ))
    (fin : List α) : Prop where
  sorted : SortedQ fringe
  valid : ∀ p ∈ fringe, p.Valid g ∧ p.pstart = s
  finNodes : ∀ u ∈ fin, u ∈ g.nodes
  finNodup : fin.Nodup
  endNotFin : e ∉ fin
  covStart : s ∉ fin → ∃ p ∈ fringe, p.getEnd = s ∧ p.cost ≤ 0
  covEdge : ∀ u ∈ fin, ∀ ed ∈ (lookupList g.neighbors u).getD [],
    ed.nodeTo ∉ fin →
      ∃ p ∈ fringe, p.getEnd = ed.nodeTo ∧
        ∀ c, CostPath g s u c → p.cost ≤ c + ed.label

theorem dinv_cover {g : LabeledGraph α τ} {s e : α} {fringe : List (PathW α τ)}
    {fin : List α} (inv : DInv g s e fringe fin) (hNN : NonNeg g) :
    ∀ {d : α} {c : τ}, CostPath g s d c → d ∉ fin → ∃ p ∈ fringe, p.cost ≤ c := by
  intro d c h
  induction h with
  | refl =>
    intro hd
    obtain ⟨p, hp, _, hc⟩ := inv.covStart hd
    exact ⟨p, hp, hc⟩
  | step hp he ih =>
    intro hd
    rename_i b d' w k
    by_cases hb : b ∈ fin
    · obtain ⟨ed, hmem, hto, hl⟩ := he
      obtain ⟨p, hpf, _, hbound⟩ :=
        inv.covEdge b hb ed hmem (by rw [hto]; exact hd)
      exact ⟨p, hpf, by rw [← hl]; exact hbound k hp⟩
    · obtain ⟨p, hpf, hc⟩ := ih hb
      exact ⟨p, hpf, le_trans hc (le_add_of_nonneg_right (edgeMem_nonneg hNN he))⟩

theorem dinv_pop_min {g : LabeledGraph α τ} {s e : α} {p : PathW α τ}
    {rest : List (PathW α τ)} {fin : List α}
    (inv : DInv g s e (p :: rest) fin) (hNN : NonNeg g)
    (hd : p.getEnd ∉ fin) :
    ∀ c, CostPath g s p.getEnd c → p.cost ≤ c := by
  intro c hc
  obtain ⟨q, hq, hqc⟩ := dinv_cover inv hNN hc hd
  exact le_trans (head_min inv.sorted hq) hqc

theorem dinv_skip {g : LabeledGraph α τ} {s e : α} {p : PathW α τ}
    {rest : List (PathW α τ)} {fin : List α}
    (inv : DInv g s e (p :: rest) fin) (hfin : p.getEnd ∈ fin) :
    DInv g s e rest fin where
  sorted := (List.pairwise_cons.mp inv.sorted).2
  valid := fun q hq => inv.valid q (List.mem_cons_of_mem _ hq)
  finNodes := inv.finNodes
  finNodup := inv.finNodup
  endNotFin := inv.endNotFin
  covStart := by
    intro hs'
    obtain ⟨q, hq, hqe, hqc⟩ := inv.covStart hs'
    refine ⟨q, ?_, hqe, hqc⟩
    rcases List.mem_cons.mp hq with rfl | h
    · exact absurd (hqe ▸ hfin) hs'
    · exact h
  covEdge := by
    intro u hu ed hed hto
    obtain ⟨q, hq, hqe, hqb⟩ := inv.covEdge u hu ed hed hto
    refine ⟨q, ?_, hqe, hqb⟩
    rcases List.mem_cons.mp hq with rfl | h
    · exact absurd (hqe ▸ hfin) hto
    · exact h

theorem dinv_finish {g : LabeledGraph α τ} {s e : α} {p : PathW α τ}
    {rest : List (PathW α τ)} {fin : List α} {es : List (LabeledEdge α τ)}
    (hWF : g.WF) (hNN : NonNeg g)
    (inv : DInv g s e (p :: rest) fin)
    (hend : p.getEnd ≠ e) (hfin : p.getEnd ∉ fin)
    (hes : lookupList g.neighbors p.getEnd = some es)
    (hdmem : p.getEnd ∈ g.nodes) :
    DInv g s e
      ((es.filter (fun e2 => decide (e2.nodeTo ∉ fin))).foldl
        (fun fr e2 => push (p.extend e2.nodeTo e2.label) fr) rest)
      (p.getEnd :: fin) where
  sorted := sortedQ_foldl_push ((List.pairwise_cons.mp inv.sorted).2)
  valid := by
    intro q hq
    rcases mem_foldl_push_cases hq with h | ⟨ed, hede, rfl⟩
    · exact inv.valid q (List.mem_cons_of_mem _ h)
    · have hpv := inv.valid p (List.mem_cons_self _ _)
      have hedge : EdgeMem g p.getEnd ed.nodeTo ed.label :=
        ⟨ed, by rw [hes]; exact List.mem_of_mem_filter hede, rfl, rfl⟩
      exact ⟨extend_valid hpv.1 hedge, by rw [extend_pstart]; exact hpv.2⟩
  finNodes := by
    intro u hu
    rcases List.mem_cons.mp hu with rfl | h
    · exact hdmem
    · exact inv.finNodes u h
  finNodup := List.nodup_cons.mpr ⟨hfin, inv.finNodup⟩
  endNotFin := by
    intro h
    rcases List.mem_cons.mp h with h' | h'
    · exact hend h'.symm
    · exact inv.endNotFin h'
  covStart := by
    intro hs'
    have hs'' : s ∉ fin := fun h => hs' (List.mem_cons_of_mem _ h)
    have hsd : s ≠ p.getEnd := fun h => hs' (h ▸ List.mem_cons_self _ _)
    obtain ⟨q, hq, hqe, hqc⟩ := inv.covStart hs''
    refine ⟨q, ?_, hqe, hqc⟩
    rcases List.mem_cons.mp hq with rfl | h
    · exact absurd hqe.symm hsd
    · exact mem_foldl_push_base h
  covEdge := by
    intro u hu ed hed hto
    have htofin : ed.nodeTo ∉ fin := fun h => hto (List.mem_cons_of_mem _ h)
    have htod : ed.nodeTo ≠ p.getEnd := fun h => hto (h ▸ List.mem_cons_self _ _)
    rcases List.mem_cons.mp hu with rfl | hufin
    · rw [hes] at hed
      simp only [Option.getD_some] at hed
      have hedf : ed ∈ es.filter (fun e2 => decide (e2.nodeTo ∉ fin)) :=
        List.mem_filter.mpr ⟨hed, by simpa using htofin⟩
      refine ⟨p.extend ed.nodeTo ed.label, mem_foldl_push_elem hedf,
        extend_getEnd p ed.nodeTo ed.label, ?_⟩
      intro c hc
      rw [extend_cost]
      exact add_le_add_right (dinv_pop_min inv hNN hfin c hc) _
    · obtain ⟨q, hq, hqe, hqb⟩ := inv.covEdge u hufin ed hed htofin
      refine ⟨q, ?_, hqe, hqb⟩
      rcases List.mem_cons.mp hq with rfl | h
      · exact absurd hqe.symm htod
      · exact mem_foldl_push_base h

theorem dijkstraLoop_spec {g : LabeledGraph α τ} {s e : α}
    (hWF : g.WF) (hNN : NonNeg g) (hs : s ∈ g.nodes) :
    ∀ (fuel : ℕ) (fringe : List (PathW α τ)) (fin : List α),
      DInv g s e fringe fin →
      measureD g fringe fin < fuel →
      (dijkstraLoop g e fuel fringe fin ≠ none) ∧
      (dijkstraLoop g e fuel fringe fin = some none →
        ∀ c, ¬ CostPath g s e c) ∧
      (∀ p, dijkstraLoop g e fuel fringe fin = some (some p) →
        p.Valid g ∧ p.pstart = s ∧ p.getEnd = e ∧
          ∀ c, CostPath g s e c → p.cost ≤ c) := by
  intro fuel
  induction fuel with
  | zero =>
    intro fringe fin _ hm
    exact absurd hm (Nat.not_lt_zero _)
  | succ fuel ih =>
    intro fringe fin inv hm
    cases fringe with
    | nil =>
      refine ⟨by simp [dijkstraLoop], ?_, ?_⟩
      · intro _ c hc
        obtain ⟨p, hp, _⟩ := dinv_cover inv hNN hc inv.endNotFin
        simp at hp
      · intro p hp
        simp [dijkstraLoop] at hp
    | cons p rest =>
      by_cases hend : p.getEnd = e
      · have hres : dijkstraLoop g e (fuel + 1) (p :: rest) fin = some (some p) := by
          simp [dijkstraLoop, hend]
        refine ⟨by simp [hres], by simp [hres], ?_⟩
        intro q hq
        rw [hres] at hq
        obtain rfl : p = q := by simpa using hq
        obtain ⟨hv, hps⟩ := inv.valid p (List.mem_cons_self _ _)
        refine ⟨hv, hps, hend, ?_⟩
        intro c hc
        exact dinv_pop_min inv hNN (fun h => inv.endNotFin (hend ▸ h)) c
          (hend ▸ hc)
      · by_cases hfin : p.getEnd ∈ fin
        · have hres : dijkstraLoop g e (fuel + 1) (p :: rest) fin =
              dijkstraLoop g e fuel rest fin := by
            simp [dijkstraLoop, hend, hfin]
          have hm' : measureD g rest fin < fuel := by
            unfold measureD at hm ⊢
            simp only [List.length_cons] at hm
            omega
          obtain ⟨h1, h2, h3⟩ := ih rest fin (dinv_skip inv hfin) hm'
          rw [hres]
          exact ⟨h1, h2, h3⟩
        · have hdmem : p.getEnd ∈ g.nodes := by
            obtain ⟨hv, hps⟩ := inv.valid p (List.mem_cons_self _ _)
            exact valid_end_mem hWF hv (hps ▸ hs)
          obtain ⟨es, hes⟩ : ∃ es, lookupList g.neighbors p.getEnd = some es := by
            have hk : p.getEnd ∈ g.keys := hWF.2.2.1 _ hdmem
            have := lookup_isSome_iff.mpr hk
            exact Option.isSome_iff_exists.mp this
          have hres : dijkstraLoop g e (fuel + 1) (p :: rest) fin =
              dijkstraLoop g e fuel
                ((es.filter (fun e2 => decide (e2.nodeTo ∉ fin))).foldl
                  (fun fr e2 => push (p.extend e2.nodeTo e2.label) fr) rest)
                (p.getEnd :: fin) := by
            simp [dijkstraLoop, hend, hfin, hes]
          have hm' : measureD g
              ((es.filter (fun e2 => decide (e2.nodeTo ∉ fin))).foldl
                (fun fr e2 => push (p.extend e2.nodeTo e2.label) fr) rest)
              (p.getEnd :: fin) < fuel := by
            have hlen := length_foldl_push
              (fun e2 : LabeledEdge α τ => p.extend e2.nodeTo e2.label) rest
              (es.filter (fun e2 => decide (e2.nodeTo ∉ fin)))
            have hfl : (es.filter (fun e2 => decide (e2.nodeTo ∉ fin))).length ≤
                es.length := es.length_filter_le _
            have hdeg : degOf g p.getEnd = es.length := by
              unfold degOf
              rw [hes]
              rfl
            have hsplit := unfinishedDeg_split hWF.1 hdmem hfin
            unfold measureD at hm ⊢
            simp only [List.length_cons] at hm
            rw [hlen]
            omega
          obtain ⟨h1, h2, h3⟩ :=
            ih _ _ (dinv_finish hWF hNN inv hend hfin hes hdmem) hm'
          rw [hres]
          exact ⟨h1, h2, h3⟩

theorem solver_init_inv (g : LabeledGraph α τ) (s e : α) :
    DInv g s e [PathW.single s] [] where
  sorted := List.pairwise_singleton _ _
  valid := by
    intro p hp
    simp only [List.mem_singleton] at hp
    subst hp
    exact ⟨single_valid g s, rfl⟩
  finNodes := by intro u hu; simp at hu
  finNodup := List.nodup_nil
  endNotFin := by simp
  covStart := fun _ =>
    ⟨PathW.single s, List.mem_singleton_self _, single_getEnd s,
      le_of_eq (single_cost s)⟩
  covEdge := by intro u hu; simp at hu

theorem shortestPathSolver_spec {g : LabeledGraph α τ} {s e : α}
    (hWF : g.WF) (hNN : NonNeg g) (hs : s ∈ g.nodes) :
    (shortestPathSolver g s e ≠ none) ∧
    (shortestPathSolver g s e = some none → ∀ c, ¬ CostPath g s e c) ∧
    (∀ p, shortestPathSolver g s e = some (some p) →
      p.Valid g ∧ p.pstart = s ∧ p.getEnd = e ∧
        ∀ c, CostPath g s e c → p.cost ≤ c) := by
  have hm : measureD g [PathW.single s] [] < totalDeg g + 2 := by
    unfold measureD
    rw [unfinishedDeg_nil hWF]
    simp only [List.length_singleton]
    omega
  exact dijkstraLoop_spec hWF hNN hs (totalDeg g + 2) [PathW.single s] []
    (solver_init_inv g s e) hm

end DijkstraProof

/-! ### Claim C1 and C2 example graphs -/

/-- The spec's scenario graph: nodes A=0, B=1, C=2 with edges A→B (10),
A→C (20), B→C (5). -/
def exGraphA : LabeledGraph ℕ ℤ :=
  ⟨[0, 1, 2], [(0, [⟨0, 1, 10⟩, ⟨0, 2, 20⟩]), (1, [⟨1, 2, 5⟩]), (2, [])]⟩

/-- The spec's disconnected scenario: two nodes, no edges. -/
def exGraphB : LabeledGraph ℕ ℤ := ⟨[0, 1], [(0, []), (1, [])]⟩

/-- C1: For every directed graph whose edge weights are all non-negative and
for every pair of nodes `s` and `e` that exist in the graph, if
`ShortestPathFinder.shortestPathSolver(graph, s, e)` returns a path, that
path is a genuine path of the graph leading from `s` to `e`, and its cost
equals the minimum cost achievable among all paths from `s` to `e` (its
cost is achieved by a path, and is a lower bound on the cost of every
path). -/
theorem shortestPathSolver_correct {α τ : Type} [DecidableEq α] [DecidableEq τ]
    [LinearOrderedAddCommMonoid τ] (g : LabeledGraph α τ) (s e : α)
    (hWF : g.WF) (hNN : NonNeg g) (hs : s ∈ g.nodes) (he : e ∈ g.nodes)
    (p : PathW α τ) (hret : shortestPathSolver g s e = some (some p)) :
    p.Valid g ∧ p.pstart = s ∧ p.getEnd = e ∧ CostPath g s e p.cost ∧
      ∀ c, CostPath g s e c → p.cost ≤ c := by
  obtain ⟨_, _, h3⟩ := shortestPathSolver_spec (e := e) hWF hNN hs
  obtain ⟨hv, hps, hpe, hmin⟩ := h3 p hret
  refine ⟨hv, hps, hpe, ?_, hmin⟩
  have := valid_costPath hv
  rw [hps, hpe] at this
  exact this

/-- Witness for C1 at the spec's scenario graph: the solver returns the
two-segment path A→B→C of cost 15, which is minimal. -/
theorem shortestPathSolver_correct_witness :
    (⟨0, [⟨0, 1, 10⟩, ⟨1, 2, 5⟩], 15⟩ : PathW ℕ ℤ).Valid exGraphA ∧
    (⟨0, [⟨0, 1, 10⟩, ⟨1, 2, 5⟩], 15⟩ : PathW ℕ ℤ).pstart = 0 ∧
    (⟨0, [⟨0, 1, 10⟩, ⟨1, 2, 5⟩], 15⟩ : PathW ℕ ℤ).getEnd = 2 ∧
    CostPath exGraphA 0 2 (⟨0, [⟨0, 1, 10⟩, ⟨1, 2, 5⟩], 15⟩ : PathW ℕ ℤ).cost ∧
    ∀ c, CostPath exGraphA 0 2 c →
      (⟨0, [⟨0, 1, 10⟩, ⟨1, 2, 5⟩], 15⟩ : PathW ℕ ℤ).cost ≤ c :=
  shortestPathSolver_correct exGraphA 0 2 (by decide) (by decide) (by decide)
    (by decide) ⟨0, [⟨0, 1, 10⟩, ⟨1, 2, 5⟩], 15⟩ (by decide)

/-- C2: For every graph with non-negative weights and every pair of nodes
`s` and `e` in it, the solver returns `null` (modelled `some none`) exactly
when no path from `s` to `e` exists, and this "no path" outcome is a normal
return value, never an exception (the solver result is never the error
value `none`). -/
theorem shortestPathSolver_none_iff {α τ : Type} [DecidableEq α] [DecidableEq τ]
    [LinearOrderedAddCommMonoid τ] (g : LabeledGraph α τ) (s e : α)
    (hWF : g.WF) (hNN : NonNeg g) (hs : s ∈ g.nodes) (he : e ∈ g.nodes) :
    (shortestPathSolver g s e = some none ↔ ∀ c, ¬ CostPath g s e c) ∧
      shortestPathSolver g s e ≠ none := by
  obtain ⟨h1, h2, h3⟩ := shortestPathSolver_spec (e := e) hWF hNN hs
  refine ⟨⟨h2, ?_⟩, h1⟩
  intro hno
  cases hres : shortestPathSolver g s e with
  | none => exact absurd hres h1
  | some o =>
    cases o with
    | none => rfl
    | some p =>
      obtain ⟨hv, hps, hpe, _⟩ := h3 p hres
      refine absurd ?_ (hno p.cost)
      have := valid_costPath hv
      rw [hps, hpe] at this
      exact this

/-- Witness for C2 at the disconnected scenario graph: the solver reports
"no path" between the two isolated nodes. -/
theorem shortestPathSolver_none_iff_witness :
    (shortestPathSolver exGraphB 0 1 = some none ↔
      ∀ c, ¬ CostPath exGraphB 0 1 c) ∧
      shortestPathSolver exGraphB 0 1 ≠ none :=
  shortestPathSolver_none_iff exGraphB 0 1 (by decide) (by decide) (by decide)
    (by decide)

/-! ### LabeledGraph mutator claims -/

section GraphClaims

variable [DecidableEq τ]

theorem mem_nodes_iff_lookup {g : LabeledGraph α τ} (hWF : g.WF) (a : α) :
    a ∈ g.nodes ↔ ∃ es, lookupList g.neighbors a = some es := by
  constructor
  · intro h
    exact Option.isSome_iff_exists.mp (lookup_isSome_iff.mpr (hWF.2.2.1 a h))
  · intro ⟨es, hes⟩
    exact hWF.2.2.2.1 a (lookup_isSome_iff.mp (by simp [hes]))

theorem not_mem_nodes_iff_lookup {g : LabeledGraph α τ} (hWF : g.WF) (a : α) :
    a ∉ g.nodes ↔ lookupList g.neighbors a = none := by
  rw [mem_nodes_iff_lookup hWF, ← Option.not_isSome_iff_eq_none,
    Option.isSome_iff_exists]

end GraphClaims

/-- C5: `LabeledGraph.addEdge(from, to, label)` fails with `InvalidArgument`
exactly when some endpoint is not a node of the graph; it never changes the
node set (so it never silently creates a missing node, and on failure the
graph is unchanged); with both endpoints present it inserts the edge exactly
when no equal (from,to,label) edge is already stored under `from`, returns
whether it inserted, and leaves the stored edges of every other node — in
particular the reverse direction — untouched. -/
theorem addEdge_spec {α τ : Type} [DecidableEq α] [DecidableEq τ]
    (g : LabeledGraph α τ) (f t : α) (w : τ) (hWF : g.WF) :
    ((g.addEdge f t w).1 = .error .invalidArgument ↔
      (f ∉ g.nodes ∨ t ∉ g.nodes)) ∧
    (g.addEdge f t w).2.nodes = g.nodes ∧
    ((g.addEdge f t w).1 = .error .invalidArgument → (g.addEdge f t w).2 = g) ∧
    (∀ b, (g.addEdge f t w).1 = .ok b →
      (b = true ↔ (⟨f, t, w⟩ : LabeledEdge α τ) ∉
        (lookupList g.neighbors f).getD [])) ∧
    ((g.addEdge f t w).1 = .ok true →
      ∃ es, lookupList g.neighbors f = some es ∧
        lookupList (g.addEdge f t w).2.neighbors f =
          some ((⟨f, t, w⟩ : LabeledEdge α τ) :: es)) ∧
    ((g.addEdge f t w).1 = .ok false → (g.addEdge f t w).2 = g) ∧
    (∀ n, n ≠ f →
      lookupList (g.addEdge f t w).2.neighbors n = lookupList g.neighbors n) := by
  rcases hf : lookupList g.neighbors f with _ | es
  · have hmemf : f ∉ g.nodes := (not_mem_nodes_iff_lookup hWF f).mpr hf
    have hred : g.addEdge f t w = (.error .invalidArgument, g) := by
      simp [LabeledGraph.addEdge, hf]
    rw [hred]
    exact ⟨by simp [hmemf], rfl, fun _ => rfl, by simp, by simp, by simp,
      fun n _ => rfl⟩
  · rcases ht : lookupList g.neighbors t with _ | es2
    · have hmemt : t ∉ g.nodes := (not_mem_nodes_iff_lookup hWF t).mpr ht
      have hred : g.addEdge f t w = (.error .invalidArgument, g) := by
        simp [LabeledGraph.addEdge, hf, ht]
      rw [hred]
      exact ⟨by simp [hmemt], rfl, fun _ => rfl, by simp, by simp, by simp,
        fun n _ => rfl⟩
    · have hmemf : f ∈ g.nodes := (mem_nodes_iff_lookup hWF f).mpr ⟨es, hf⟩
      have hmemt : t ∈ g.nodes := (mem_nodes_iff_lookup hWF t).mpr ⟨es2, ht⟩
      by_cases hin : (⟨f, t, w⟩ : LabeledEdge α τ) ∈ es
      · have hred : g.addEdge f t w = (.ok false, g) := by
          simp [LabeledGraph.addEdge, hf, ht, hin]
        rw [hred]
        refine ⟨by simp [hmemf, hmemt], rfl, by simp, ?_, by simp,
          fun _ => rfl, fun n _ => rfl⟩
        intro b hb
        obtain rfl : (false : Bool) = b := by simpa using hb
        simp [hf, hin]
      · have hred : g.addEdge f t w =
            (.ok true, ⟨g.nodes, updateList g.neighbors f (⟨f, t, w⟩ :: es)⟩) := by
          simp [LabeledGraph.addEdge, hf, ht, hin]
        rw [hred]
        refine ⟨by simp [hmemf, hmemt], rfl, by simp, ?_, ?_, by simp, ?_⟩
        · intro b hb
          obtain rfl : (true : Bool) = b := by simpa using hb
          simp [hf, hin]
        · intro _
          exact ⟨es, rfl, lookup_updateList_self hf _⟩
        · intro n hn
          exact lookup_updateList_ne _ hn

/-- Witness for C5: adding the fresh edge 1→0 (weight 7) to the scenario
graph succeeds and inserts it. -/
theorem addEdge_spec_witness :
    (((exGraphA.addEdge 1 0 7).1 = .error .invalidArgument ↔
      ((1 : ℕ) ∉ exGraphA.nodes ∨ (0 : ℕ) ∉ exGraphA.nodes)) ∧
    (exGraphA.addEdge 1 0 7).2.nodes = exGraphA.nodes ∧
    ((exGraphA.addEdge 1 0 7).1 = .error .invalidArgument →
      (exGraphA.addEdge 1 0 7).2 = exGraphA) ∧
    (∀ b, (exGraphA.addEdge 1 0 7).1 = .ok b →
      (b = true ↔ (⟨1, 0, 7⟩ : LabeledEdge ℕ ℤ) ∉
        (lookupList exGraphA.neighbors 1).getD [])) ∧
    ((exGraphA.addEdge 1 0 7).1 = .ok true →
      ∃ es, lookupList exGraphA.neighbors 1 = some es ∧
        lookupList (exGraphA.addEdge 1 0 7).2.neighbors 1 =
          some ((⟨1, 0, 7⟩ : LabeledEdge ℕ ℤ) :: es)) ∧
    ((exGraphA.addEdge 1 0 7).1 = .ok false →
      (exGraphA.addEdge 1 0 7).2 = exGraphA) ∧
    (∀ n, n ≠ 1 →
      lookupList (exGraphA.addEdge 1 0 7).2.neighbors n =
        lookupList exGraphA.neighbors n)) :=
  addEdge_spec exGraphA 1 0 7 (by decide)

section WFPreservation

variable [DecidableEq τ]

theorem addNode_WF {g : LabeledGraph α τ} (hWF : g.WF) (n : α) :
    (g.addNode n).2.WF := by
  unfold LabeledGraph.addNode
  by_cases hn : n ∈ g.nodes
  · simpa [hn] using hWF
  · rw [if_neg hn]
    obtain ⟨h1, h2, h3, h4, h5, h6⟩ := hWF
    have hnk : n ∉ g.keys := fun hk => hn (h4 n hk)
    refine ⟨List.nodup_cons.mpr ⟨hn, h1⟩, ?_, ?_, ?_, ?_, ?_⟩
    · show (((n, ([] : List (LabeledEdge α τ))) :: g.neighbors).map Prod.fst).Nodup
      simpa [LabeledGraph.keys] using List.nodup_cons.mpr ⟨hnk, h2⟩
    · intro a ha
      rcases List.mem_cons.mp ha with rfl | ha'
      · exact List.mem_cons_self _ _
      · exact List.mem_cons_of_mem _ (by simpa [LabeledGraph.keys] using h3 a ha')
    · intro a ha
      have ha' : a ∈ n :: g.neighbors.map Prod.fst := ha
      rcases List.mem_cons.mp ha' with h' | h'
      · exact h' ▸ List.mem_cons_self _ _
      · exact List.mem_cons_of_mem _ (h4 a h')
    · intro kv hkv
      rcases List.mem_cons.mp hkv with rfl | hkv'
      · exact List.nodup_nil
      · exact h5 kv hkv'
    · intro kv hkv e he
      rcases List.mem_cons.mp hkv with rfl | hkv'
      · simp at he
      · obtain ⟨hto, hfrom⟩ := h6 kv hkv' e he
        exact ⟨List.mem_cons_of_mem _ hto, List.mem_cons_of_mem _ hfrom⟩

theorem addEdge_WF {g : LabeledGraph α τ} (hWF : g.WF) (f t : α) (w : τ) :
    (g.addEdge f t w).2.WF := by
  rcases hf : lookupList g.neighbors f with _ | es
  · have hred : (g.addEdge f t w).2 = g := by simp [LabeledGraph.addEdge, hf]
    rw [hred]
    exact hWF
  · rcases ht : lookupList g.neighbors t with _ | es2
    · have hred : (g.addEdge f t w).2 = g := by
        simp [LabeledGraph.addEdge, hf, ht]
      rw [hred]
      exact hWF
    · by_cases hin : (⟨f, t, w⟩ : LabeledEdge α τ) ∈ es
      · have hred : (g.addEdge f t w).2 = g := by
          simp [LabeledGraph.addEdge, hf, ht, hin]
        rw [hred]
        exact hWF
      · have hred : (g.addEdge f t w).2 =
            ⟨g.nodes, updateList g.neighbors f (⟨f, t, w⟩ :: es)⟩ := by
          simp [LabeledGraph.addEdge, hf, ht, hin]
        rw [hred]
        obtain ⟨h1, h2, h3, h4, h5, h6⟩ := hWF
        have hfk : (f, es) ∈ g.neighbors := lookup_mem hf
        have hmemf : f ∈ g.nodes :=
          h4 f (lookup_isSome_iff.mp (by simp [hf]))
        have hmemt : t ∈ g.nodes :=
          h4 t (lookup_isSome_iff.mp (by simp [ht]))
        refine ⟨h1, ?_, ?_, ?_, ?_, ?_⟩
        · show ((updateList g.neighbors f (⟨f, t, w⟩ :: es)).map Prod.fst).Nodup
          rw [keys_updateList]
          exact h2
        · intro a ha
          show a ∈ (updateList g.neighbors f (⟨f, t, w⟩ :: es)).map Prod.fst
          rw [keys_updateList]
          exact h3 a ha
        · intro a ha
          refine h4 a ?_
          show a ∈ LabeledGraph.keys g
          rw [LabeledGraph.keys, ← keys_updateList g.neighbors f (⟨f, t, w⟩ :: es)]
          exact ha
        · intro kv hkv
          rcases mem_updateList hkv with h' | rfl
          · exact h5 kv h'
          · exact List.nodup_cons.mpr ⟨hin, h5 _ hfk⟩
        · intro kv hkv e he
          rcases mem_updateList hkv with h' | rfl
          · exact h6 kv h' e he
          · rcases List.mem_cons.mp he with rfl | he'
            · exact ⟨hmemt, hmemf⟩
            · exact h6 _ hfk e he'

theorem removeEdge_WF {g : LabeledGraph α τ} (hWF : g.WF) (f t : α) (w : τ) :
    (g.removeEdge f t w).2.WF := by
  rcases hf : lookupList g.neighbors f with _ | es
  · have hred : (g.removeEdge f t w).2 = g := by
      simp [LabeledGraph.removeEdge, hf]
    rw [hred]
    exact hWF
  · rcases ht : lookupList g.neighbors t with _ | es2
    · have hred : (g.removeEdge f t w).2 = g := by
        simp [LabeledGraph.removeEdge, hf, ht]
      rw [hred]
      exact hWF
    · by_cases hin : (⟨f, t, w⟩ : LabeledEdge α τ) ∈ es
      · have hred : (g.removeEdge f t w).2 =
            ⟨g.nodes, updateList g.neighbors f (es.erase ⟨f, t, w⟩)⟩ := by
          simp [LabeledGraph.removeEdge, hf, ht, hin]
        rw [hred]
        obtain ⟨h1, h2, h3, h4, h5, h6⟩ := hWF
        have hfk : (f, es) ∈ g.neighbors := lookup_mem hf
        refine ⟨h1, ?_, ?_, ?_, ?_, ?_⟩
        · show ((updateList g.neighbors f
            (es.erase ⟨f, t, w⟩)).map Prod.fst).Nodup
          rw [keys_updateList]
          exact h2
        · intro a ha
          show a ∈ (updateList g.neighbors f (es.erase ⟨f, t, w⟩)).map Prod.fst
          rw [keys_updateList]
          exact h3 a ha
        · intro a ha
          refine h4 a ?_
          show a ∈ LabeledGraph.keys g
          rw [LabeledGraph.keys,
            ← keys_updateList g.neighbors f (es.erase ⟨f, t, w⟩)]
          exact ha
        · intro kv hkv
          rcases mem_updateList hkv with h' | rfl
          · exact h5 kv h'
          · exact (h5 _ hfk).erase _
        · intro kv hkv e he
          rcases mem_updateList hkv with h' | rfl
          · exact h6 kv h' e he
          · exact h6 _ hfk e (List.mem_of_mem_erase he)
      · have hred : (g.removeEdge f t w).2 = g := by
          simp [LabeledGraph.removeEdge, hf, ht, hin]
        rw [hred]
        exact hWF

end WFPreservation

/-- C6: every LabeledGraph mutating operation (`addNode`, `addEdge`,
`removeEdge`) preserves the representation invariant: the node set equals
the adjacency key set, every stored edge's endpoints are nodes of the
graph, and the stored sets stay duplicate-free.  (Null nodes and labels are
unrepresentable in the embedding, so no null value is ever stored.) -/
theorem mutators_preserve_WF {α τ : Type} [DecidableEq α] [DecidableEq τ]
    (g : LabeledGraph α τ) (hWF : g.WF) (n f t : α) (w : τ) :
    (g.addNode n).2.WF ∧ (g.addEdge f t w).2.WF ∧ (g.removeEdge f t w).2.WF :=
  ⟨addNode_WF hWF n, addEdge_WF hWF f t w, removeEdge_WF hWF f t w⟩

/-- Witness for C6: the invariant is preserved when adding node 7, adding
edge 1→0 (weight 7), and removing the (absent) edge 1→0 (weight 7) on the
scenario graph. -/
theorem mutators_preserve_WF_witness :
    (exGraphA.addNode 7).2.WF ∧ (exGraphA.addEdge 1 0 7).2.WF ∧
      (exGraphA.removeEdge 1 0 7).2.WF :=
  mutators_preserve_WF exGraphA (by decide) 7 1 0 7

/-! ### Node enumeration (listNodes) -/

section SortLemmas

theorem mem_insertHash {hash : α → ℤ} {a x : α} {l : List α} :
    x ∈ LabeledGraph.insertHash hash a l ↔ x = a ∨ x ∈ l := by
  induction l with
  | nil => simp [LabeledGraph.insertHash]
  | cons b rest ih =>
    by_cases h : hash a < hash b
    · simp [LabeledGraph.insertHash, h]
    · simp [LabeledGraph.insertHash, h, ih]
      tauto

theorem insertHash_perm (hash : α → ℤ) (a : α) (l : List α) :
    (LabeledGraph.insertHash hash a l).Perm (a :: l) := by
  induction l with
  | nil => exact List.Perm.refl _
  | cons b rest ih =>
    by_cases h : hash a < hash b
    · rw [LabeledGraph.insertHash, if_pos h]
    · rw [LabeledGraph.insertHash, if_neg h]
      exact (ih.cons b).trans (List.Perm.swap a b rest)

theorem insertHash_sorted {hash : α → ℤ} {a : α} {l : List α}
    (h : l.Pairwise (fun x y => hash x ≤ hash y)) :
    (LabeledGraph.insertHash hash a l).Pairwise (fun x y => hash x ≤ hash y) := by
  induction l with
  | nil => simp [LabeledGraph.insertHash]
  | cons b rest ih =>
    rw [List.pairwise_cons] at h
    by_cases hab : hash a < hash b
    · rw [LabeledGraph.insertHash, if_pos hab, List.pairwise_cons]
      refine ⟨?_, List.pairwise_cons.mpr h⟩
      intro x hx
      rcases List.mem_cons.mp hx with rfl | hx'
      · exact le_of_lt hab
      · exact le_trans (le_of_lt hab) (h.1 x hx')
    · rw [LabeledGraph.insertHash, if_neg hab, List.pairwise_cons]
      constructor
      · intro x hx
        rcases mem_insertHash.mp hx with rfl | hx'
        · exact le_of_not_lt hab
        · exact h.1 x hx'
      · exact ih h.2

theorem sortByHash_perm (hash : α → ℤ) (l : List α) :
    (LabeledGraph.sortByHash hash l).Perm l := by
  induction l with
  | nil => exact List.Perm.refl _
  | cons a rest ih =>
    exact (insertHash_perm hash a _).trans (ih.cons a)

theorem sortByHash_sorted (hash : α → ℤ) (l : List α) :
    (LabeledGraph.sortByHash hash l).Pairwise (fun x y => hash x ≤ hash y) := by
  induction l with
  | nil => simp [LabeledGraph.sortByHash]
  | cons a rest ih => exact insertHash_sorted ih

end SortLemmas

/-- C9 counterexample: the enumeration order of `listNodes` does depend on
the hash function — on the two-node graph, the identity hash and its
negation produce different orders, so the order is not hash-independent. -/
theorem listNodes_depends_on_hash :
    LabeledGraph.listNodes (fun n : ℕ => (n : ℤ)) exGraphB ≠
      LabeledGraph.listNodes (fun n : ℕ => -(n : ℤ)) exGraphB := by decide

/-- C9 (amended): `listNodes` returns every node of the graph exactly once
(a permutation of the node set) in non-decreasing order of the hash values;
the order is exactly sort-by-hashCode, so it is determined by (and depends
on) the hash function, with ties left in the underlying set order. -/
theorem listNodes_sorted_perm {α τ : Type} [DecidableEq α] [DecidableEq τ]
    (hash : α → ℤ) (g : LabeledGraph α τ) :
    (g.listNodes hash).Perm g.nodes ∧
      (g.listNodes hash).Pairwise (fun x y => hash x ≤ hash y) :=
  ⟨sortByHash_perm hash g.nodes, sortByHash_sorted hash g.nodes⟩

/-! ### Edge counting (numEdges) -/

/-- Single-node graph used as the C10 counterexample. -/
def exGraphC : LabeledGraph ℕ ℤ := ⟨[0], [(0, [])]⟩

/-- C10 counterexample: `numEdges` on an absent node fails with an
`AssertionError` (its membership checks are Java `assert` statements), not
with `IllegalArgumentException` as the claim states. -/
theorem numEdges_not_invalidArgument :
    exGraphC.numEdges 0 1 = .error .assertionError ∧
      exGraphC.numEdges 0 1 ≠ .error .invalidArgument := by
  exact ⟨rfl, by decide⟩

/-- C10 (amended): `numEdges(n1, n2)` fails with `AssertionError` — not
`IllegalArgumentException` — exactly when one of the nodes is absent from
the graph (with Java assertions enabled; with them disabled an absent `n1`
gives a null dereference and an absent `n2` simply yields 0); when both are
present it returns exactly the number of stored edges out of `n1` whose
destination is `n2`. -/
theorem numEdges_spec {α τ : Type} [DecidableEq α] [DecidableEq τ]
    (g : LabeledGraph α τ) (n1 n2 : α) (hWF : g.WF) :
    ((g.numEdges n1 n2 = .error .assertionError) ↔
      (n1 ∉ g.nodes ∨ n2 ∉ g.nodes)) ∧
    (∀ es, lookupList g.neighbors n1 = some es → n2 ∈ g.nodes →
      g.numEdges n1 n2 = .ok (es.countP (fun e2 => decide (e2.nodeTo = n2)))) := by
  rcases hf : lookupList g.neighbors n1 with _ | es
  · have hmem : n1 ∉ g.nodes := (not_mem_nodes_iff_lookup hWF n1).mpr hf
    have hred : g.numEdges n1 n2 = .error .assertionError := by
      simp [LabeledGraph.numEdges, hf]
    exact ⟨by simp [hred, hmem], by simp [hf]⟩
  · rcases ht : lookupList g.neighbors n2 with _ | es2
    · have hmem : n2 ∉ g.nodes := (not_mem_nodes_iff_lookup hWF n2).mpr ht
      have hred : g.numEdges n1 n2 = .error .assertionError := by
        simp [LabeledGraph.numEdges, hf, ht]
      refine ⟨by simp [hred, hmem], ?_⟩
      intro es' hes' hmem2
      exact absurd hmem2 hmem
    · have hmem1 : n1 ∈ g.nodes := (mem_nodes_iff_lookup hWF n1).mpr ⟨es, hf⟩
      have hmem2 : n2 ∈ g.nodes := (mem_nodes_iff_lookup hWF n2).mpr ⟨es2, ht⟩
      have hred : g.numEdges n1 n2 =
          .ok (es.countP (fun e2 => decide (e2.nodeTo = n2))) := by
        simp [LabeledGraph.numEdges, hf, ht]
      refine ⟨by simp [hred, hmem1, hmem2], ?_⟩
      intro es' hes' _
      obtain rfl : es = es' := Option.some_injective _ hes'
      exact hred

/-- Witness for C10 (amended) on the scenario graph: both nodes present,
one edge from B=1 to C=2. -/
theorem numEdges_spec_witness :
    ((exGraphA.numEdges 1 2 = .error .assertionError) ↔
      ((1 : ℕ) ∉ exGraphA.nodes ∨ (2 : ℕ) ∉ exGraphA.nodes)) ∧
    (∀ es, lookupList exGraphA.neighbors 1 = some es → (2 : ℕ) ∈ exGraphA.nodes →
      exGraphA.numEdges 1 2 =
        .ok (es.countP (fun e2 => decide (e2.nodeTo = 2)))) :=
  numEdges_spec exGraphA 1 2 (by decide)

/-! ### CampusMap -/

/-- Modelled from the spec: the `Point` coordinate type (source absent) —
a 2-D coordinate pair with exact equality, no tolerance or snapping. -/
structure Point : Type where
  x : ℚ
  y : ℚ
deriving DecidableEq

/-- A building record as produced by the external parser (spec section 6):
short name, long name and coordinates. -/
structure CampusBuilding : Type where
  shortName : String
  longName : String
  x : ℚ
  y : ℚ
deriving DecidableEq

/-- The CampusMap state (fields of CampusMap.java): the campus graph over
`Point` nodes with `Double` (here `ℚ`) distances, the two name/point
indices, the shortest-path cache (whose stored value may itself be `null`,
i.e. `none`), and the building set. -/
structure CampusMap : Type where
  graph : LabeledGraph Point ℚ
  pointToBuildings : List (Point × CampusBuilding)
  shortNameToPoint : List (String × Point)
  shortestPathMap : List ((String × String) × Option (PathW Point ℚ))
  buildings : List CampusBuilding
deriving DecidableEq

namespace CampusMap

/-- Embeds `shortNameExists` (CampusMap.java:78-81). -/
def shortNameExists (m : CampusMap) (s : String) : Bool :=
  (lookupList m.shortNameToPoint s).isSome

/-- Embeds `longNameForShort` (CampusMap.java:88-95): an unknown short name throws
`IllegalArgumentException`; otherwise the building is fetched through the
point index (`.error .internal` models the null dereference that would
occur if the point had no building record). -/
def longNameForShort (m : CampusMap) (s : String) : Except Err String :=
  match lookupList m.shortNameToPoint s with
  | none => .error .invalidArgument
  | some p =>
    match lookupList m.pointToBuildings p with
    | some b => .ok b.longName
    | none => .error .internal

/-- Embeds `findShortestPath` (CampusMap.java:122-137): null or unknown names throw
`IllegalArgumentException`; otherwise the ordered-pair cache is consulted
and, on a miss, the solver result (possibly the `null` path) is stored under
the queried ordered pair.  Returns the result, the post-state (unchanged
when an exception is thrown) and whether the solver was invoked. -/
def findShortestPath (m : CampusMap) (s e : Option String) :
    Except Err (Option (PathW Point ℚ)) × CampusMap × Bool :=
  match s, e with
  | some a, some b =>
    match lookupList m.shortNameToPoint a, lookupList m.shortNameToPoint b with
    | some pa, some pb =>
      match lookupList m.shortestPathMap (a, b) with
      | some r => (.ok r, m, false)
      | none =>
        match shortestPathSolver m.graph pa pb with
        | none => (.error .internal, m, true)
        | some r =>
          (.ok r, { m with shortestPathMap := ((a, b), r) :: m.shortestPathMap },
            true)
    | _, _ => (.error .invalidArgument, m, false)
  | _, _ => (.error .invalidArgument, m, false)

end CampusMap

/-- A name argument is invalid in the sense of the claim: null, the empty
string, or not a registered building short name. -/
def BadName (m : CampusMap) (n : Option String) : Prop :=
  n = none ∨ n = some "" ∨ ∃ a, n = some a ∧ m.shortNameExists a = false

/-- The example campus map: buildings A at (0,0) and B at (1,0), one
directed edge A→B of distance 3, empty cache. -/
def exMap : CampusMap :=
  ⟨⟨[⟨0, 0⟩, ⟨1, 0⟩], [(⟨0, 0⟩, [⟨⟨0, 0⟩, ⟨1, 0⟩, 3⟩]), (⟨1, 0⟩, [])]⟩,
   [(⟨0, 0⟩, ⟨"A", "Building A", 0, 0⟩), (⟨1, 0⟩, ⟨"B", "Building B", 1, 0⟩)],
   [("A", ⟨0, 0⟩), ("B", ⟨1, 0⟩)],
   [],
   [⟨"A", "Building A", 0, 0⟩, ⟨"B", "Building B", 1, 0⟩]⟩

/-- C3: `findShortestPath` fails with `InvalidArgument` exactly when at
least one of the two names is null, empty, or not a registered short name
(assuming, as the campus data guarantees, that the empty string is not a
registered short name); in particular the failure is independent of the
other name, and with two valid names this failure never occurs. -/
theorem findShortestPath_invalid_iff (m : CampusMap) (s e : Option String)
    (hE : m.shortNameExists "" = false) :
    (m.findShortestPath s e).1 = .error .invalidArgument ↔
      (BadName m s ∨ BadName m e) := by
  cases s with
  | none =>
    simp only [CampusMap.findShortestPath]
    exact ⟨fun _ => Or.inl (Or.inl rfl), fun _ => trivial⟩
  | some a =>
    cases e with
    | none =>
      simp only [CampusMap.findShortestPath]
      exact ⟨fun _ => Or.inr (Or.inl rfl), fun _ => trivial⟩
    | some b =>
      have hEnone : lookupList m.shortNameToPoint "" = none := by
        rw [CampusMap.shortNameExists] at hE
        exact Option.not_isSome_iff_eq_none.mp (by simp [hE])
      rcases ha : lookupList m.shortNameToPoint a with _ | pa
      · have hred : (m.findShortestPath (some a) (some b)).1 =
            .error .invalidArgument := by
          rcases hb : lookupList m.shortNameToPoint b with _ | pb <;>
            simp [CampusMap.findShortestPath, ha, hb]
        simp only [hred]
        refine ⟨fun _ => Or.inl (Or.inr (Or.inr ⟨a, rfl, ?_⟩)), fun _ => trivial⟩
        simp [CampusMap.shortNameExists, ha]
      · rcases hb : lookupList m.shortNameToPoint b with _ | pb
        · have hred : (m.findShortestPath (some a) (some b)).1 =
              .error .invalidArgument := by
            simp [CampusMap.findShortestPath, ha, hb]
          simp only [hred]
          refine ⟨fun _ => Or.inr (Or.inr (Or.inr ⟨b, rfl, ?_⟩)), fun _ => trivial⟩
          simp [CampusMap.shortNameExists, hb]
        · have hgood : ∀ n : String, lookupList m.shortNameToPoint n = some pa ∨
              lookupList m.shortNameToPoint n = some pb →
              ¬ BadName m (some n) := by
            intro n hn hbad
            rcases hbad with h | h | ⟨a', ha', he'⟩
            · exact Option.noConfusion h
            · obtain rfl : n = "" := by injection h
              rcases hn with hn | hn <;> rw [hEnone] at hn <;>
                exact Option.noConfusion hn
            · obtain rfl : n = a' := by injection ha'
              rw [CampusMap.shortNameExists] at he'
              rcases hn with hn | hn <;> rw [hn] at he' <;> simp at he'
          constructor
          · intro hres
            exfalso
            rcases hc : lookupList m.shortestPathMap (a, b) with _ | r
            · rcases hs : shortestPathSolver m.graph pa pb with _ | r1
              · have : (m.findShortestPath (some a) (some b)).1 =
                    .error .internal := by
                  simp [CampusMap.findShortestPath, ha, hb, hc, hs]
                rw [this] at hres
                exact Err.noConfusion (Except.error.inj hres)
              · have : (m.findShortestPath (some a) (some b)).1 = .ok r1 := by
                  simp [CampusMap.findShortestPath, ha, hb, hc, hs]
                rw [this] at hres
                exact Except.noConfusion hres
            · have : (m.findShortestPath (some a) (some b)).1 = .ok r := by
                simp [CampusMap.findShortestPath, ha, hb, hc]
              rw [this] at hres
              exact Except.noConfusion hres
          · intro hbad
            exfalso
            rcases hbad with h | h
            · exact hgood a (Or.inl ha) h
            · exact hgood b (Or.inr hb) h

/-- Witness for C3: querying the example map with a valid name and an
unknown name fails with `InvalidArgument`. -/
theorem findShortestPath_invalid_iff_witness :
    ((exMap.findShortestPath (some "A") (some "ZZZ")).1 =
        .error .invalidArgument ↔
      (BadName exMap (some "A") ∨ BadName exMap (some "ZZZ"))) :=
  findShortestPath_invalid_iff exMap (some "A") (some "ZZZ") (by decide)

/-- C4: once a call `findShortestPath(A,B)` has succeeded, an immediately
repeated call returns the same result from the cache — the state is
unchanged and the solver is not invoked (`false` flag) — including when the
cached outcome is "no path"; and the cache key is the ordered pair: a call
for (A,B) with A ≠ B leaves the cache entry for (B,A) untouched. -/
theorem findShortestPath_cached (m : CampusMap) (a b : String)
    (r : Option (PathW Point ℚ)) (m₁ : CampusMap) (u : Bool)
    (h : m.findShortestPath (some a) (some b) = (.ok r, m₁, u)) :
    m₁.findShortestPath (some a) (some b) = (.ok r, m₁, false) ∧
      (a ≠ b → lookupList m₁.shortestPathMap (b, a) =
        lookupList m.shortestPathMap (b, a)) := by
  rcases ha : lookupList m.shortNameToPoint a with _ | pa
  · simp [CampusMap.findShortestPath, ha] at h
  · rcases hb : lookupList m.shortNameToPoint b with _ | pb
    · simp [CampusMap.findShortestPath, ha, hb] at h
    · rcases hc : lookupList m.shortestPathMap (a, b) with _ | r0
      · rcases hs : shortestPathSolver m.graph pa pb with _ | r1
        · simp [CampusMap.findShortestPath, ha, hb, hc, hs] at h
        · have hred : m.findShortestPath (some a) (some b) =
              (.ok r1,
                { m with shortestPathMap := ((a, b), r1) :: m.shortestPathMap },
                true) := by
            simp [CampusMap.findShortestPath, ha, hb, hc, hs]
          rw [hred, Prod.mk.injEq, Prod.mk.injEq] at h
          obtain ⟨h1, h2, h3⟩ := h
          obtain rfl : r1 = r := by injection h1
          subst h2
          subst h3
          constructor
          · simp [CampusMap.findShortestPath, lookupList, ha, hb]
          · intro hab
            show lookupList (((a, b), r1) :: m.shortestPathMap) (b, a) =
              lookupList m.shortestPathMap (b, a)
            rw [lookupList, if_neg]
            intro hpair
            rw [Prod.mk.injEq] at hpair
            exact hab hpair.1
      · have hred : m.findShortestPath (some a) (some b) =
            (.ok r0, m, false) := by
          simp [CampusMap.findShortestPath, ha, hb, hc]
        rw [hred, Prod.mk.injEq, Prod.mk.injEq] at h
        obtain ⟨h1, h2, h3⟩ := h
        obtain rfl : r0 = r := by injection h1
        subst h2
        exact ⟨hred, fun _ => rfl⟩

/-- The example map after caching the (A,A) query: one cache entry holding
the zero-segment path at A's point. -/
def exMapAfter : CampusMap :=
  { exMap with shortestPathMap := [(("A", "A"), some (PathW.single ⟨0, 0⟩))] }

/-- Witness for C4: after a first (A,A) query on the example map produced
`exMapAfter`, the repeated query is answered from the cache with the same
zero-cost path, without invoking the solver and without touching the
reversed key. -/
theorem findShortestPath_cached_witness :
    exMapAfter.findShortestPath (some "A") (some "A") =
      (.ok (some (PathW.single ⟨0, 0⟩)), exMapAfter, false) ∧
      ("A" ≠ "A" → lookupList exMapAfter.shortestPathMap ("A", "A") =
        lookupList exMap.shortestPathMap ("A", "A")) :=
  findShortestPath_cached exMap "A" "A" (some (PathW.single ⟨0, 0⟩)) exMapAfter
    true (by decide)

/-- C7: `findShortestPath` never changes the graph, the building set, or the
name indices; the cache is append-only: every existing entry still resolves
to the same value afterwards, a failing call leaves the map unchanged, and
a successful call either leaves the cache unchanged (hit) or prepends
exactly one entry under the queried ordered pair, which was absent before
(miss). -/
theorem findShortestPath_frame (m : CampusMap) (s e : Option String)
    (res : Except Err (Option (PathW Point ℚ))) (m₁ : CampusMap) (u : Bool)
    (h : m.findShortestPath s e = (res, m₁, u)) :
    m₁.graph = m.graph ∧ m₁.pointToBuildings = m.pointToBuildings ∧
    m₁.shortNameToPoint = m.shortNameToPoint ∧ m₁.buildings = m.buildings ∧
    (∀ k r, lookupList m.shortestPathMap k = some r →
      lookupList m₁.shortestPathMap k = some r) ∧
    ((∃ err, res = .error err) → m₁ = m) ∧
    (∀ v, res = .ok v →
      (m₁.shortestPathMap = m.shortestPathMap ∨
        ∃ a b, s = some a ∧ e = some b ∧
          lookupList m.shortestPathMap (a, b) = none ∧
          m₁.shortestPathMap = ((a, b), v) :: m.shortestPathMap)) := by
  cases s with
  | none =>
    have hred : m.findShortestPath none e = (.error .invalidArgument, m, false) :=
      rfl
    rw [hred, Prod.mk.injEq, Prod.mk.injEq] at h
    obtain ⟨h1, h2, h3⟩ := h
    subst h1
    subst h2
    exact ⟨rfl, rfl, rfl, rfl, fun _ _ hk => hk, fun _ => rfl,
      fun v hv => Except.noConfusion hv⟩
  | some a =>
    cases e with
    | none =>
      have hred : m.findShortestPath (some a) none =
          (.error .invalidArgument, m, false) := rfl
      rw [hred, Prod.mk.injEq, Prod.mk.injEq] at h
      obtain ⟨h1, h2, h3⟩ := h
      subst h1
      subst h2
      exact ⟨rfl, rfl, rfl, rfl, fun _ _ hk => hk, fun _ => rfl,
        fun v hv => Except.noConfusion hv⟩
    | some b =>
      rcases ha : lookupList m.shortNameToPoint a with _ | pa
      · have hred : m.findShortestPath (some a) (some b) =
            (.error .invalidArgument, m, false) := by
          rcases hb : lookupList m.shortNameToPoint b with _ | pb <;>
            simp [CampusMap.findShortestPath, ha, hb]
        rw [hred, Prod.mk.injEq, Prod.mk.injEq] at h
        obtain ⟨h1, h2, h3⟩ := h
        subst h1
        subst h2
        exact ⟨rfl, rfl, rfl, rfl, fun _ _ hk => hk, fun _ => rfl,
          fun v hv => Except.noConfusion hv⟩
      · rcases hb : lookupList m.shortNameToPoint b with _ | pb
        · have hred : m.findShortestPath (some a) (some b) =
              (.error .invalidArgument, m, false) := by
            simp [CampusMap.findShortestPath, ha, hb]
          rw [hred, Prod.mk.injEq, Prod.mk.injEq] at h
          obtain ⟨h1, h2, h3⟩ := h
          subst h1
          subst h2
          exact ⟨rfl, rfl, rfl, rfl, fun _ _ hk => hk, fun _ => rfl,
            fun v hv => Except.noConfusion hv⟩
        · rcases hc : lookupList m.shortestPathMap (a, b) with _ | r0
          · rcases hs : shortestPathSolver m.graph pa pb with _ | r1
            · have hred : m.findShortestPath (some a) (some b) =
                  (.error .internal, m, true) := by
                simp [CampusMap.findShortestPath, ha, hb, hc, hs]
              rw [hred, Prod.mk.injEq, Prod.mk.injEq] at h
              obtain ⟨h1, h2, h3⟩ := h
              subst h1
              subst h2
              exact ⟨rfl, rfl, rfl, rfl, fun _ _ hk => hk, fun _ => rfl,
                fun v hv => Except.noConfusion hv⟩
            · have hred : m.findShortestPath (some a) (some b) =
                  (.ok r1,
                    { m with shortestPathMap :=
                        ((a, b), r1) :: m.shortestPathMap },
                    true) := by
                simp [CampusMap.findShortestPath, ha, hb, hc, hs]
              rw [hred, Prod.mk.injEq, Prod.mk.injEq] at h
              obtain ⟨h1, h2, h3⟩ := h
              subst h1
              subst h2
              refine ⟨rfl, rfl, rfl, rfl, ?_, ?_, ?_⟩
              · intro k r hk
                show lookupList (((a, b), r1) :: m.shortestPathMap) k = some r
                rw [lookupList]
                by_cases hkey : (a, b) = k
                · rw [← hkey, hc] at hk
                  exact Option.noConfusion hk
                · rw [if_neg hkey]
                  exact hk
              · intro h'
                obtain ⟨err, he⟩ := h'
                exact Except.noConfusion he
              · intro v hv
                obtain rfl : r1 = v := by injection hv
                exact Or.inr ⟨a, b, rfl, rfl, hc, rfl⟩
          · have hred : m.findShortestPath (some a) (some b) =
                (.ok r0, m, false) := by
              simp [CampusMap.findShortestPath, ha, hb, hc]
            rw [hred, Prod.mk.injEq, Prod.mk.injEq] at h
            obtain ⟨h1, h2, h3⟩ := h
            subst h1
            subst h2
            exact ⟨rfl, rfl, rfl, rfl, fun _ _ hk => hk, fun _ => rfl,
              fun v hv => Or.inl rfl⟩

/-- Witness for C7 at a failing call: a null/null query on the example map
fails with `InvalidArgument` and leaves the whole map unchanged. -/
theorem findShortestPath_frame_witness :
    exMap.graph = exMap.graph ∧
    exMap.pointToBuildings = exMap.pointToBuildings ∧
    exMap.shortNameToPoint = exMap.shortNameToPoint ∧
    exMap.buildings = exMap.buildings ∧
    (∀ k r, lookupList exMap.shortestPathMap k = some r →
      lookupList exMap.shortestPathMap k = some r) ∧
    ((∃ err, (.error .invalidArgument :
        Except Err (Option (PathW Point ℚ))) = .error err) → exMap = exMap) ∧
    (∀ v, (.error .invalidArgument :
        Except Err (Option (PathW Point ℚ))) = .ok v →
      (exMap.shortestPathMap = exMap.shortestPathMap ∨
        ∃ a b, (none : Option String) = some a ∧
          (none : Option String) = some b ∧
          lookupList exMap.shortestPathMap (a, b) = none ∧
          exMap.shortestPathMap = ((a, b), v) :: exMap.shortestPathMap)) :=
  findShortestPath_frame exMap none none (.error .invalidArgument) exMap false
    rfl

/-- C8 counterexample: looking up the long name of the unregistered short
name "ZZZ" throws `IllegalArgumentException` — the very same failure the
taxonomy calls `InvalidArgument` — not a distinct `NotFound` failure. -/
theorem longNameForShort_not_notFound :
    exMap.longNameForShort "ZZZ" = .error .invalidArgument ∧
      exMap.longNameForShort "ZZZ" ≠ .error .notFound := by decide

/-- C8 (amended): `longNameForShort` fails — with `IllegalArgumentException`
(`InvalidArgument`), not a distinct `NotFound` — exactly when the short name
is unregistered; for every registered short name it returns the long name of
that building (assuming every indexed point has a building record, as the
rep invariant guarantees). -/
theorem longNameForShort_spec (m : CampusMap) (s : String)
    (hpb : ∀ kv ∈ m.shortNameToPoint,
      (lookupList m.pointToBuildings kv.2).isSome = true) :
    ((m.longNameForShort s = .error .invalidArgument) ↔
      m.shortNameExists s = false) ∧
    (∀ p b, lookupList m.shortNameToPoint s = some p →
      lookupList m.pointToBuildings p = some b →
      m.longNameForShort s = .ok b.longName) := by
  rcases ha : lookupList m.shortNameToPoint s with _ | p
  · have hred : m.longNameForShort s = .error .invalidArgument := by
      simp [CampusMap.longNameForShort, ha]
    refine ⟨by simp [hred, CampusMap.shortNameExists, ha], ?_⟩
    intro p b hp hb
    exact Option.noConfusion hp
  · have hb' := hpb (s, p) (lookup_mem ha)
    obtain ⟨b0, hb0⟩ := Option.isSome_iff_exists.mp hb'
    have hred : m.longNameForShort s = .ok b0.longName := by
      simp [CampusMap.longNameForShort, ha, hb0]
    refine ⟨?_, ?_⟩
    · rw [hred]
      constructor
      · intro he
        exact Except.noConfusion he
      · intro hex
        exact absurd hex (by simp [CampusMap.shortNameExists, ha])
    · intro p' b hp' hb
      obtain rfl : p = p' := Option.some_injective _ hp'
      obtain rfl : b0 = b := by
        rw [hb0] at hb
        exact Option.some_injective _ hb
      exact hred

/-- Witness for C8 (amended) at the registered name "A" of the example
map. -/
theorem longNameForShort_spec_witness :
    ((exMap.longNameForShort "A" = .error .invalidArgument) ↔
      exMap.shortNameExists "A" = false) ∧
    (∀ p b, lookupList exMap.shortNameToPoint "A" = some p →
      lookupList exMap.pointToBuildings p = some b →
      exMap.longNameForShort "A" = .ok b.longName) :=
  longNameForShort_spec exMap "A" (by decide)

end CampusPaths
